import Mathlib

/-!
# Verification of the pangeo-forge recipe engine (`pangeo_forge/recipe.py`)

A shallow embedding of the region/conflict resolution algorithm and the
staged-execution contract of the recipe classes in `pangeo_forge/recipe.py`:

* the JSON metadata record `{"input_sequence_lens": [...]}` written by
  `prepare_target` and read back by `region_and_conflicts_for_chunk`;
* `region_and_conflicts_for_chunk` (both the fixed `nitems_per_input` branch
  and the metadata-cache branch);
* the chunk/input bookkeeping of `NetCDFtoZarrSequentialRecipe` and
  `NetCDFtoZarrMultiVarSequentialRecipe` (`__post_init__`, `sequence_lens`);
* the existence probe of `prepare_target` (its `except` clause);
* `expand_target_dim`, the variable-dropping region write of `store_chunk`,
  and `to_pipelines`.

Fallible Python operations (dict indexing, list indexing, `next(iter(...))`,
raised exceptions) are modelled with `Option`/`Except`.  Arrays are modelled
one-dimensionally along the concatenation axis, which is the only axis the
verified code manipulates.
-/

namespace PangeoForge

/-! ## JSON values and the metadata cache

The metadata cache stores JSON documents.  `json.dumps`/`json.loads` of the
Python standard library are external collaborators; we model the cache at the
level of structured JSON values, with the wire format
`{"input_sequence_lens": [int, ...]}` fixed by the source.  Lengths along the
concatenation axis are non-negative, so numbers carry `Nat`.
-/

inductive Json where
  | num : Nat → Json
  | str : String → Json
  | arr : List Json → Json
  | obj : List (String × Json) → Json

/-- A key/value metadata cache (`self.metadata_cache.get_mapper()`); the most
recently written binding for a key wins. -/
abbrev Cache := List (String × Json)

/-- `meta_mapper[key] = value` -/
def cacheSet (c : Cache) (k : String) (v : Json) : Cache := (k, v) :: c

/-- `_GLOBAL_METADATA_KEY` from recipe.py line 29. -/
def GLOBAL_METADATA_KEY : String := "pangeo-forge-recipe-metadata.json"

/-- Decode a JSON array of numbers into a list of lengths; any non-numeric
element is a decode failure. -/
def decodeNumList : List Json → Option (List Nat)
  | [] => some []
  | Json.num n :: rest =>
      match decodeNumList rest with
      | some ns => some (n :: ns)
      | none => none
  | _ :: _ => none

/-- `json.loads(raw)["input_sequence_lens"]` applied to a cached global
metadata record (recipe.py lines 414-416). -/
def decodeLens (j : Json) : Option (List Nat) :=
  match j with
  | Json.obj fields =>
      match fields.lookup "input_sequence_lens" with
      | some (Json.arr xs) => decodeNumList xs
      | _ => none
  | _ => none

/-- `json.dumps({"input_sequence_lens": input_sequence_lens})`
(recipe.py lines 269-272), at the structured JSON level. -/
def recipeMetaJson (lens : List Nat) : Json :=
  Json.obj [("input_sequence_lens", Json.arr (lens.map Json.num))]

/-- The metadata-writing tail of `_prepare_target` (recipe.py lines 267-272):
when `nitems_per_input` is falsy the freshly resolved `input_sequence_lens`
list is persisted under the global key; otherwise the cache is untouched. -/
def prepare_target_metadata (nitems_per_input : Option Nat) (cache : Cache)
    (input_sequence_lens : List Nat) : Cache :=
  match nitems_per_input with
  | some (_ + 1) => cache
  | _ => cacheSet cache GLOBAL_METADATA_KEY (recipeMetaJson input_sequence_lens)

/-! ## List helpers shared by the embedding -/

/-- Evaluate a fallible function on every element; the whole list of results,
or `none` if any call fails.  Models a Python list comprehension in which each
element access may raise. -/
def traverseOption (f : α → Option β) : List α → Option (List β)
  | [] => some []
  | a :: as =>
      match f a, traverseOption f as with
      | some b, some bs => some (b :: bs)
      | _, _ => none

/-- Modelled from the spec: `chunked_iterable` from `pangeo_forge.utils`
(not under src/) — "ChunkKeys group consecutive InputKeys into fixed-size
batches", the last batch possibly smaller. -/
def chunked_iterable : List α → Nat → List (List α)
  | [], _ => []
  | _ :: _, 0 => []
  | x :: xs, n + 1 =>
      (x :: xs).take (n + 1) :: chunked_iterable ((x :: xs).drop (n + 1)) (n + 1)
termination_by xs _ => xs.length
decreasing_by
  simp only [List.length_drop, List.length_cons]
  omega

/-- Modelled from the spec: `calc_chunk_conflicts` from `pangeo_forge.utils`
(not under src/) — a global table mapping every input's own half-open
`[start, stop)` interval (from cumulative length prefix sums) to the ordinals
of the physical target chunks it overlaps; a zero-length input overlaps
nothing. -/
def calc_chunk_conflicts (input_sequence_lens : List Nat) (zchunk : Nat) :
    List (List Nat) :=
  (List.range input_sequence_lens.length).map (fun i =>
    let start := (input_sequence_lens.take i).sum
    let len := input_sequence_lens.getD i 0
    if len = 0 ∨ zchunk = 0 then []
    else List.range' (start / zchunk) ((start + len - 1) / zchunk + 1 - start / zchunk))

/-! ## `region_and_conflicts_for_chunk` (recipe.py lines 402-425)

The base-class method reads `self.nitems_per_input`, `self.inputs_per_chunk`,
`self._n_inputs_along_sequence`, `self._sequence_dim_chunks`, the metadata
cache, and the subclass hooks `input_position`/`chunk_position`; we pass all
of those explicitly.  Python truthiness of `if self.nitems_per_input:` means
the fixed branch runs exactly for a non-`None`, non-zero value. -/

def region_and_conflicts_for_chunk {ik : Type}
    (nitems_per_input : Option Nat) (inputs_per_chunk : Nat)
    (n_inputs_along_sequence : Nat) (sequence_dim_chunks : Nat)
    (input_position : ik → Nat) (chunk_position : Nat)
    (cache : Cache) (input_keys : List ik) :
    Option ((Nat × Nat) × List (List Nat)) :=
  match nitems_per_input with
  | some (m + 1) =>
      let nitems := m + 1
      let stride := nitems * inputs_per_chunk
      let start := chunk_position * stride
      let stop := start + stride
      let input_sequence_lens := List.replicate n_inputs_along_sequence nitems
      let all_chunk_conflicts := calc_chunk_conflicts input_sequence_lens sequence_dim_chunks
      match traverseOption (fun k => all_chunk_conflicts.get? (input_position k)) input_keys with
      | some this_chunk_conflicts => some ((start, stop), this_chunk_conflicts)
      | none => none
  | _ =>
      match (cache.lookup GLOBAL_METADATA_KEY).bind decodeLens with
      | none => none
      | some input_sequence_lens =>
        match input_keys.head? with
        | none => none
        | some k0 =>
          let start := (input_sequence_lens.take (input_position k0)).sum
          match traverseOption (fun k => input_sequence_lens.get? (input_position k)) input_keys with
          | none => none
          | some member_lens =>
            let stop := start + member_lens.sum
            let all_chunk_conflicts :=
              calc_chunk_conflicts input_sequence_lens sequence_dim_chunks
            match traverseOption (fun k => all_chunk_conflicts.get? (input_position k)) input_keys with
            | some this_chunk_conflicts => some ((start, stop), this_chunk_conflicts)
            | none => none

/-- The per-input length list each branch of `region_and_conflicts_for_chunk`
resolves: a constant table for truthy `nitems_per_input`, otherwise the global
metadata record decoded from the cache. -/
def resolved_sequence_lens (nitems_per_input : Option Nat)
    (n_inputs_along_sequence : Nat) (cache : Cache) : Option (List Nat) :=
  match nitems_per_input with
  | some (m + 1) => some (List.replicate n_inputs_along_sequence (m + 1))
  | _ => (cache.lookup GLOBAL_METADATA_KEY).bind decodeLens

/-- The WriteRegion as the SPEC states it (§4.3), written from the spec's
words for comparison with the code: `start` is the sum of the lengths of all
InputKeys preceding, in canonical order, the chunk's first InputKey, and
`stop` is `start` plus the sum of the lengths of the chunk's own InputKeys. -/
def spec_region {ik : Type} (lens : List Nat) (input_position : ik → Nat)
    (input_keys : List ik) : Option (Nat × Nat) :=
  match input_keys.head? with
  | none => none
  | some k0 =>
      let start := (lens.take (input_position k0)).sum
      some (start, start + (input_keys.map (fun k => lens.getD (input_position k) 0)).sum)

/-! ## `NetCDFtoZarrSequentialRecipe` (recipe.py lines 445-474)

One sequence of inputs; InputKeys are the enumeration indices of
`input_urls`, modelled as `List.range nInputs`, and ChunkKeys are the
enumeration indices of the batches produced by `chunked_iterable`
(Python keys `(k,)` become the bare index). -/

structure SeqRecipe where
  inputs_per_chunk : Nat
  nitems_per_input : Option Nat
  nInputs : Nat
  sequence_dim_chunks : Nat

/-- `self._chunks_inputs` of the single-sequence recipe: chunk key `k` maps to
the `k`-th batch of consecutive input indices. -/
def SeqRecipe.chunks_inputs (r : SeqRecipe) : List (List Nat) :=
  chunked_iterable (List.range r.nInputs) r.inputs_per_chunk

/-- `self._init_chunks = [next(iter(self._chunks_inputs))]` (line 465):
the singleton list holding the first chunk key, `none` when there are no
chunks (Python would raise `StopIteration`). -/
def SeqRecipe.init_chunks (r : SeqRecipe) : Option (List Nat) :=
  match r.chunks_inputs with
  | [] => none
  | _ :: _ => some [0]

/-- `region_and_conflicts_for_chunk` as invoked on a single-sequence recipe:
`inputs_for_chunk` is the dict lookup `self._chunks_inputs[chunk_key]`,
`input_position` and `chunk_position` are the identity projections
(lines 467-471), and `_n_inputs_along_sequence = len(self._inputs)`. -/
def SeqRecipe.region_and_conflicts (r : SeqRecipe) (cache : Cache) (ck : Nat) :
    Option ((Nat × Nat) × List (List Nat)) :=
  match r.chunks_inputs.get? ck with
  | none => none
  | some input_keys =>
      region_and_conflicts_for_chunk r.nitems_per_input r.inputs_per_chunk
        r.nInputs r.sequence_dim_chunks (fun k => k) ck cache input_keys

/-- Sum over all chunk keys (`iter_chunks`) of the region length
`stop - start`; `none` if any chunk's region computation fails. -/
def SeqRecipe.total_region_len (r : SeqRecipe) (cache : Cache) : Option Nat :=
  match traverseOption
      (fun ck => (r.region_and_conflicts cache ck).map (fun x => x.1.2 - x.1.1))
      (List.range r.chunks_inputs.length) with
  | some lens => some lens.sum
  | none => none

/-! ## `NetCDFtoZarrMultiVarSequentialRecipe` (recipe.py lines 481-537)

Multiple variables sharing one concatenation axis.  InputKeys are pairs
`(variable, sequence_key)`; the pattern's non-variable key list
(`self.input_pattern.keys[self._other_key]`) is `other_keys`. -/

structure MultiVarRecipe where
  variable_names : List String
  other_keys : List Nat
  inputs_per_chunk : Nat

/-- `self._chunks_inputs` built by the loop in `__post_init__`
(lines 505-516): for each variable, its sequence keys are batched by
`chunked_iterable`, and chunk key `(vname, c)` maps to the pairs
`(vname, sequence_key)` of batch `c`.  Dict insertion order is
variable-major. -/
def MultiVarRecipe.chunks_inputs (r : MultiVarRecipe) :
    List ((String × Nat) × List (String × Nat)) :=
  r.variable_names.flatMap (fun vname =>
    (chunked_iterable r.other_keys r.inputs_per_chunk).enum.map
      (fun p => ((vname, p.1), p.2.map (fun sk => (vname, sk)))))

/-- The chunk keys of the multi-variable recipe, in dict order. -/
def MultiVarRecipe.chunk_keys (r : MultiVarRecipe) : List (String × Nat) :=
  r.chunks_inputs.map Prod.fst

/-- `self._init_chunks = [chunk_key for chunk_key in self._chunks_inputs if
chunk_key[1] == 0]` (line 520). -/
def MultiVarRecipe.init_chunks (r : MultiVarRecipe) : List (String × Nat) :=
  r.chunk_keys.filter (fun chunk_key => chunk_key.2 == 0)

/-- `NetCDFtoZarrMultiVarSequentialRecipe.sequence_lens` (lines 528-537),
translated faithfully: `lens_by_variable` abstracts what
`self.input_sequence_lens(*variable_input_keys)` returns for each variable.
After the Python `for` loop the loop variable `v` holds the LAST variable, and
the guard `all([lens_by_variable[v] == lens_by_variable[variables[0]]])` is an
`all` over that single comparison; an empty variable list makes `v` unbound
(`NameError`, modelled as `none`), and a mismatch raises `ValueError`
(also `none`). -/
def sequence_lens_multivar (variable_names : List String)
    (lens_by_variable : String → List Nat) : Option (List Nat) :=
  match variable_names with
  | [] => none
  | v0 :: rest =>
      let v := List.getLast (v0 :: rest) (List.cons_ne_nil v0 rest)
      if lens_by_variable v = lens_by_variable v0 then some (lens_by_variable v0)
      else none

/-- What the SPEC requires of `sequence_lens` (§4.2), written from the spec's
words for comparison with the code: every variable's length list must equal
the first variable's, otherwise the mismatch is a fatal configuration
error. -/
def spec_sequence_lens_multivar (variable_names : List String)
    (lens_by_variable : String → List Nat) : Option (List Nat) :=
  match variable_names with
  | [] => none
  | v0 :: rest =>
      if (v0 :: rest).all (fun v => lens_by_variable v = lens_by_variable v0) then
        some (lens_by_variable v0)
      else none

/-! ## The existence probe of `prepare_target` (recipe.py lines 221-259)

`_prepare_target` first tries `self.open_target()`; the `except` clause at
line 233 names `(FileNotFoundError, IOError, zarr.errors.GroupNotFoundError)`.
In Python 3, `IOError` is an alias of `OSError`, and both `FileNotFoundError`
and `PermissionError` are `OSError` subclasses.  We model the exception
classes relevant to the probe. -/

inductive PyExc where
  | fileNotFoundError
  | permissionError
  | groupNotFoundError
  | valueError
deriving DecidableEq

/-- Membership in Python's `OSError` (= `IOError`) hierarchy. -/
def PyExc.isIOError : PyExc → Bool
  | .fileNotFoundError => true
  | .permissionError => true
  | .groupNotFoundError => false
  | .valueError => false

/-- Whether the `except (FileNotFoundError, IOError,
zarr.errors.GroupNotFoundError)` clause at line 233 catches `e`. -/
def probe_catches (e : PyExc) : Bool :=
  e == .fileNotFoundError || e.isIOError || e == .groupNotFoundError

/-- The "target not found" signals: `FileNotFoundError` and
`zarr.errors.GroupNotFoundError`. -/
def is_target_not_found (e : PyExc) : Bool :=
  e == .fileNotFoundError || e == .groupNotFoundError

/-- Outcome of the existence probe. -/
inductive ProbeOutcome where
  | foundExisting
  | createdFresh
  | raised (e : PyExc)
deriving DecidableEq

/-- The control flow of `_prepare_target`'s `try`/`except` around
`self.open_target()`: success finds the existing dataset, a caught exception
creates a fresh target from the initialization chunks, and anything else
propagates. -/
def prepare_target_probe (openResult : Except PyExc Unit) : ProbeOutcome :=
  match openResult with
  | .ok _ => .foundExisting
  | .error e => if probe_catches e then .createdFresh else .raised e

/-! ## `BaseRecipe.to_pipelines` (recipe.py lines 103-114) -/

inductive StageFun where
  | cache_input
  | prepare_target
  | store_chunk
  | finalize_target
deriving DecidableEq

/-- A rechunker `Stage`: a function plus, for parallelizable stages, the list
of items it maps over; `none` items marks a singleton stage.  Input keys and
chunk keys are injected into a common item type. -/
structure Stage (ik ck : Type) where
  fn : StageFun
  items : Option (List (Sum ik ck))

/-- `to_pipelines`: one pipeline whose stages are appended in source order;
the caching stage is appended only when `self.cache_inputs` is truthy. -/
def to_pipelines {ik ck : Type} (cache_inputs : Bool) (inputs : List ik)
    (chunks : List ck) : List (List (Stage ik ck)) :=
  let pipeline₀ : List (Stage ik ck) :=
    if cache_inputs then [⟨StageFun.cache_input, some (inputs.map Sum.inl)⟩] else []
  let pipeline := pipeline₀ ++
    [⟨StageFun.prepare_target, none⟩,
     ⟨StageFun.store_chunk, some (chunks.map Sum.inr)⟩,
     ⟨StageFun.finalize_target, none⟩]
  [pipeline]

/-! ## The target group: `expand_target_dim` and `store_chunk`

Zarr arrays are modelled one-dimensionally along the concatenation axis (the
only axis the verified code touches), keeping their full dimension-name
lists.  The target group and chunk datasets are name-keyed association
lists. -/

structure ZarrArray where
  dims : List String
  data : List Int
deriving DecidableEq

abbrev ZGroup := List (String × ZarrArray)

/-- `arr.resize(shape)` along the sequence axis: truncate or grow to
`newLen`, new entries taking the fill value 0. -/
def resizeArray (arr : ZarrArray) (newLen : Nat) : ZarrArray :=
  ⟨arr.dims, arr.data.take newLen ++ List.replicate (newLen - arr.data.length) 0⟩

/-- `arr[:] = 0`: overwrite every element, keeping the shape. -/
def zeroArray (arr : ZarrArray) : ZarrArray :=
  ⟨arr.dims, arr.data.map (fun _ => 0)⟩

/-- `expand_target_dim` (recipe.py lines 376-392): resize every variable
whose dims contain `dim` to `dimsize` along that axis, then, if `dim` itself
is an array of the group, explicitly write `zgroup[dim][:] = 0`. -/
def expand_target_dim (zgroup : ZGroup) (dim : String) (dimsize : Nat) : ZGroup :=
  let resized := zgroup.map (fun p =>
    if dim ∈ p.2.dims then (p.1, resizeArray p.2 dimsize) else p)
  if (resized.lookup dim).isSome then
    resized.map (fun p => if p.1 = dim then (p.1, zeroArray p.2) else p)
  else resized

/-- `ds_chunk.to_zarr(target_mapper, region=write_region)` (external
collaborator): each variable of `ds` is written into `[start, stop)` of the
target array with the same name; arrays not named in `ds` are untouched. -/
def write_region_to_target (target : ZGroup) (ds : List (String × ZarrArray))
    (region : Nat × Nat) : ZGroup :=
  target.map (fun p =>
    match ds.lookup p.1 with
    | some v => (p.1, ⟨p.2.dims, p.2.data.take region.1 ++ v.data ++ p.2.data.drop region.2⟩)
    | none => p)

/-- The dataset-transforming core of `_store_chunk` (recipe.py lines
278-291): drop every variable whose dims lack `sequence_dim`, then write the
remaining variables into the chunk's region of the target. -/
def store_chunk_write (sequence_dim : String) (ds_chunk : List (String × ZarrArray))
    (target : ZGroup) (write_region : Nat × Nat) : ZGroup :=
  let to_drop := (ds_chunk.filter (fun p => ¬ sequence_dim ∈ p.2.dims)).map Prod.fst
  let ds_kept := ds_chunk.filter (fun p => ¬ p.1 ∈ to_drop)
  write_region_to_target target ds_kept write_region

/-! ## Basic lemmas -/

theorem traverseOption_eq_some_map (f : α → Option β) (g : α → β) (l : List α)
    (h : ∀ a ∈ l, f a = some (g a)) : traverseOption f l = some (l.map g) := by
  induction l with
  | nil => rfl
  | cons a as ih =>
      have ha := h a (List.mem_cons_self a as)
      have hrest := ih (fun b hb => h b (List.mem_cons_of_mem a hb))
      simp [traverseOption, ha, hrest]

theorem decodeNumList_map_num (l : List Nat) :
    decodeNumList (l.map Json.num) = some l := by
  induction l with
  | nil => rfl
  | cons n ns ih => simp [decodeNumList, ih]

/-- The structured JSON round trip: decoding the record `prepare_target`
writes recovers exactly the persisted length list. -/
theorem decodeLens_recipeMetaJson (lens : List Nat) :
    decodeLens (recipeMetaJson lens) = some lens := by
  simp [decodeLens, recipeMetaJson, List.lookup, decodeNumList_map_num]

@[simp] theorem calc_chunk_conflicts_length (lens : List Nat) (zc : Nat) :
    (calc_chunk_conflicts lens zc).length = lens.length := by
  simp [calc_chunk_conflicts]

theorem get?_eq_some_getD (l : List α) (i : Nat) (d : α) (h : i < l.length) :
    l.get? i = some (l.getD i d) := by
  rw [List.get?_eq_getElem?, List.getElem?_eq_getElem h, List.getD_eq_getElem l d h]

theorem getD_replicate_of_lt (n : Nat) (a d : α) (i : Nat) (h : i < n) :
    (List.replicate n a).getD i d = a := by
  rw [List.getD_eq_getElem _ _ (by simpa using h)]
  exact List.getElem_replicate a _

theorem map_getD_range (l : List α) (d : α) :
    (List.range l.length).map (fun i => l.getD i d) = l := by
  induction l with
  | nil => rfl
  | cons a as ih =>
      rw [List.length_cons, List.range_succ_eq_map, List.map_cons, List.map_map]
      simp only [List.getD_cons_zero, Function.comp_def, List.getD_cons_succ]
      rw [ih]

theorem map_f_getD_range (l : List α) (d : α) (f : α → β) :
    (List.range l.length).map (fun i => f (l.getD i d)) = l.map f := by
  have h := congrArg (List.map f) (map_getD_range l d)
  rw [List.map_map] at h
  exact h

/-! ## Lemmas about `chunked_iterable` -/

theorem chunked_flatten (xs : List α) (n : Nat) (h : n ≠ 0) :
    (chunked_iterable xs n).flatten = xs := by
  induction xs, n using chunked_iterable.induct with
  | case1 n => simp [chunked_iterable]
  | case2 x xs => exact absurd rfl h
  | case3 x xs n ih =>
      rw [chunked_iterable]
      rw [List.flatten_cons, ih n.succ_ne_zero]
      exact List.take_append_drop _ _

theorem chunked_ne_nil (xs : List α) (n : Nat) :
    ∀ c ∈ chunked_iterable xs n, c ≠ [] := by
  induction xs, n using chunked_iterable.induct with
  | case1 n => simp [chunked_iterable]
  | case2 x xs => simp [chunked_iterable]
  | case3 x xs n ih =>
      rw [chunked_iterable]
      intro c hc
      rcases List.mem_cons.mp hc with hhd | htl
      · subst hhd; simp
      · exact ih c htl

theorem chunked_length_mul (xs : List α) (n : Nat) (h : n ≠ 0)
    (hd : n ∣ xs.length) : (chunked_iterable xs n).length * n = xs.length := by
  induction xs, n using chunked_iterable.induct with
  | case1 n => simp [chunked_iterable]
  | case2 x xs => exact absurd rfl h
  | case3 x xs n ih =>
      rw [chunked_iterable]
      have hlen : (List.drop (n + 1) (x :: xs)).length = (x :: xs).length - (n + 1) := by
        simp
      have hd2 : (n + 1) ∣ (List.drop (n + 1) (x :: xs)).length := by
        rw [hlen]; exact Nat.dvd_sub' hd dvd_rfl
      have ih2 := ih n.succ_ne_zero hd2
      have hle : n + 1 ≤ (x :: xs).length := Nat.le_of_dvd (by simp) hd
      rw [List.length_cons, Nat.add_mul, ih2, hlen]
      simp only [List.length_cons] at hle ⊢
      omega

theorem mem_chunked_range_lt (m n : Nat) (h : n ≠ 0) (c : List Nat)
    (hc : c ∈ chunked_iterable (List.range m) n) (k : Nat) (hk : k ∈ c) :
    k < m := by
  have hmem : k ∈ (chunked_iterable (List.range m) n).flatten :=
    List.mem_flatten.mpr ⟨c, hc, hk⟩
  rw [chunked_flatten _ _ h] at hmem
  exact List.mem_range.mp hmem

/-! ## The region computation versus the spec's RegionResolver -/

/-- Core comparison of `region_and_conflicts_for_chunk` with the spec's
region formula.  In the metadata branch the code computes exactly the spec's
interval; in the fixed branch it does so provided the chunk is full
(`inputs_per_chunk` members) and its first input sits at position
`chunk_position * inputs_per_chunk`. -/
theorem region_matches_spec_aux {ik : Type}
    (nitems_per_input : Option Nat)
    (inputs_per_chunk n_inputs sequence_dim_chunks : Nat)
    (input_position : ik → Nat) (chunk_position : Nat) (cache : Cache)
    (input_keys : List ik) (lens : List Nat)
    (hlens : resolved_sequence_lens nitems_per_input n_inputs cache = some lens)
    (hlen : lens.length = n_inputs)
    (hpos : ∀ k ∈ input_keys, input_position k < n_inputs)
    (hfixed : ∀ m, nitems_per_input = some (m + 1) →
      input_keys.length = inputs_per_chunk ∧
      ∃ k0, input_keys.head? = some k0 ∧
        input_position k0 = chunk_position * inputs_per_chunk) :
    (region_and_conflicts_for_chunk nitems_per_input inputs_per_chunk n_inputs
        sequence_dim_chunks input_position chunk_position cache
        input_keys).map Prod.fst
      = spec_region lens input_position input_keys := by
  have hconf : traverseOption
      (fun k => (calc_chunk_conflicts lens sequence_dim_chunks).get? (input_position k))
      input_keys
      = some (input_keys.map
          (fun k => (calc_chunk_conflicts lens sequence_dim_chunks).getD (input_position k) [])) :=
    traverseOption_eq_some_map _ _ _ (fun a ha =>
      get?_eq_some_getD _ _ _
        (by rw [calc_chunk_conflicts_length, hlen]; exact hpos a ha))
  rcases nitems_per_input with _ | ⟨_ | m⟩
  · -- nitems_per_input = None: the metadata-cache branch
    simp only [resolved_sequence_lens] at hlens
    cases hk : input_keys.head? with
    | none =>
        rcases List.head?_eq_none_iff.mp hk with rfl
        simp [region_and_conflicts_for_chunk, spec_region, hlens]
    | some k0 =>
        have hmem : traverseOption (fun k => lens.get? (input_position k)) input_keys
            = some (input_keys.map (fun k => lens.getD (input_position k) 0)) :=
          traverseOption_eq_some_map _ _ _ (fun a ha =>
            get?_eq_some_getD _ _ _ (by rw [hlen]; exact hpos a ha))
        simp only [region_and_conflicts_for_chunk, spec_region, hlens, hk, hmem, hconf,
          Option.map_some']
  · -- nitems_per_input = 0 (falsy): same metadata-cache branch
    simp only [resolved_sequence_lens] at hlens
    cases hk : input_keys.head? with
    | none =>
        rcases List.head?_eq_none_iff.mp hk with rfl
        simp [region_and_conflicts_for_chunk, spec_region, hlens]
    | some k0 =>
        have hmem : traverseOption (fun k => lens.get? (input_position k)) input_keys
            = some (input_keys.map (fun k => lens.getD (input_position k) 0)) :=
          traverseOption_eq_some_map _ _ _ (fun a ha =>
            get?_eq_some_getD _ _ _ (by rw [hlen]; exact hpos a ha))
        simp only [region_and_conflicts_for_chunk, spec_region, hlens, hk, hmem, hconf,
          Option.map_some']
  · -- nitems_per_input = m + 1 (truthy): the fixed-stride branch
    obtain ⟨hlenk, k0, hk0, hpos0⟩ := hfixed m rfl
    simp only [resolved_sequence_lens, Option.some.injEq] at hlens
    have hk0mem : k0 ∈ input_keys := List.mem_of_mem_head? hk0
    have hk0lt : input_position k0 < n_inputs := hpos k0 hk0mem
    have hstart : (lens.take (input_position k0)).sum
        = chunk_position * ((m + 1) * inputs_per_chunk) := by
      rw [← hlens, List.take_replicate, List.sum_replicate, smul_eq_mul,
        Nat.min_eq_left (Nat.le_of_lt hk0lt), hpos0]
      ring
    have hmembers : (input_keys.map (fun k => lens.getD (input_position k) 0)).sum
        = (m + 1) * inputs_per_chunk := by
      have hrep : input_keys.map (fun k => lens.getD (input_position k) 0)
          = List.replicate inputs_per_chunk (m + 1) := by
        apply List.eq_replicate_iff.mpr
        refine ⟨by rw [List.length_map, hlenk], ?_⟩
        intro b hb
        rcases List.mem_map.mp hb with ⟨a, ha, rfl⟩
        rw [← hlens]
        exact getD_replicate_of_lt _ _ _ _ (hpos a ha)
      rw [hrep, List.sum_replicate, smul_eq_mul]
      ring
    simp only [region_and_conflicts_for_chunk]
    rw [hlens, hconf]
    simp only [spec_region, hk0, Option.map_some', Option.some.injEq, Prod.mk.injEq]
    exact ⟨hstart.symm, by rw [hstart, hmembers]⟩

/-- In the metadata branch, a valid chunk's region length is the sum of its
member input lengths. -/
theorem seq_region_len_falsy (r : SeqRecipe) (cache : Cache) (lens : List Nat)
    (ck : Nat)
    (hfal : r.nitems_per_input.getD 0 = 0)
    (hlens : resolved_sequence_lens r.nitems_per_input r.nInputs cache = some lens)
    (hlen : lens.length = r.nInputs)
    (hipc : r.inputs_per_chunk ≠ 0)
    (hck : ck < r.chunks_inputs.length) :
    (r.region_and_conflicts cache ck).map (fun x => x.1.2 - x.1.1)
      = some (((r.chunks_inputs.getD ck []).map (fun k => lens.getD k 0)).sum) := by
  set members := r.chunks_inputs.getD ck [] with hmembers
  have hget : r.chunks_inputs.get? ck = some members :=
    get?_eq_some_getD _ _ _ hck
  have hmem : members ∈ r.chunks_inputs := by
    rw [hmembers, List.getD_eq_getElem _ _ hck]
    exact List.getElem_mem _
  have hnn : members ≠ [] := chunked_ne_nil _ _ members hmem
  have hpos : ∀ k ∈ members, k < r.nInputs := fun k hk =>
    mem_chunked_range_lt r.nInputs r.inputs_per_chunk hipc members hmem k hk
  have hfixed : ∀ m, r.nitems_per_input = some (m + 1) →
      members.length = r.inputs_per_chunk ∧
      ∃ k0, members.head? = some k0 ∧ k0 = ck * r.inputs_per_chunk := by
    intro m hm
    rw [hm] at hfal
    simp at hfal
  have haux := region_matches_spec_aux r.nitems_per_input r.inputs_per_chunk
    r.nInputs r.sequence_dim_chunks (fun k => k) ck cache members lens hlens hlen
    hpos hfixed
  rcases List.exists_cons_of_ne_nil hnn with ⟨k0, rest, hk0⟩
  have hspec : spec_region lens (fun k => k) members
      = some ((List.take k0 lens).sum,
          (List.take k0 lens).sum + (List.map (fun k => lens.getD k 0) members).sum) := by
    rw [hk0]
    simp only [spec_region, List.head?_cons]
  rcases Option.map_eq_some'.mp (haux.trans hspec) with ⟨x, hx, hfst⟩
  simp only [SeqRecipe.region_and_conflicts, hget]
  rw [hx, Option.map_some', hfst]
  rw [Nat.add_sub_cancel_left]

/-- In the fixed branch, every valid chunk's region length is the full stride
`nitems_per_input * inputs_per_chunk`, regardless of how many members the
chunk actually has. -/
theorem seq_region_len_fixed (r : SeqRecipe) (cache : Cache) (m : Nat) (ck : Nat)
    (hfix : r.nitems_per_input = some (m + 1))
    (hipc : r.inputs_per_chunk ≠ 0)
    (hck : ck < r.chunks_inputs.length) :
    (r.region_and_conflicts cache ck).map (fun x => x.1.2 - x.1.1)
      = some ((m + 1) * r.inputs_per_chunk) := by
  set members := r.chunks_inputs.getD ck [] with hmembers
  have hget : r.chunks_inputs.get? ck = some members :=
    get?_eq_some_getD _ _ _ hck
  have hmem : members ∈ r.chunks_inputs := by
    rw [hmembers, List.getD_eq_getElem _ _ hck]
    exact List.getElem_mem _
  have hpos : ∀ k ∈ members, k < r.nInputs := fun k hk =>
    mem_chunked_range_lt r.nInputs r.inputs_per_chunk hipc members hmem k hk
  have hconf : traverseOption
      (fun k => (calc_chunk_conflicts (List.replicate r.nInputs (m + 1))
        r.sequence_dim_chunks).get? k) members
      = some (members.map
          (fun k => (calc_chunk_conflicts (List.replicate r.nInputs (m + 1))
            r.sequence_dim_chunks).getD k [])) :=
    traverseOption_eq_some_map _ _ _ (fun a ha =>
      get?_eq_some_getD _ _ _
        (by rw [calc_chunk_conflicts_length, List.length_replicate]; exact hpos a ha))
  simp only [SeqRecipe.region_and_conflicts, hget]
  simp only [region_and_conflicts_for_chunk, hfix, hconf, Option.map_some']
  rw [Nat.add_sub_cancel_left]

/-- Sum of all chunk region lengths, for recipes whose configuration makes
the regions tile the axis: either lengths come from the metadata cache, or
the fixed-length chunking is exact. -/
theorem total_region_len_aux (r : SeqRecipe) (cache : Cache) (lens : List Nat)
    (hipc : r.inputs_per_chunk ≠ 0)
    (hlens : resolved_sequence_lens r.nitems_per_input r.nInputs cache = some lens)
    (hlen : lens.length = r.nInputs)
    (hok : r.nitems_per_input.getD 0 = 0 ∨ r.inputs_per_chunk ∣ r.nInputs) :
    r.total_region_len cache = some lens.sum := by
  rcases hnit : r.nitems_per_input with _ | ⟨_ | m⟩
  -- metadata branch (nitems_per_input = None)
  · have hfal : r.nitems_per_input.getD 0 = 0 := by rw [hnit]; rfl
    have htrav : traverseOption
        (fun ck => (r.region_and_conflicts cache ck).map (fun x => x.1.2 - x.1.1))
        (List.range r.chunks_inputs.length)
        = some ((List.range r.chunks_inputs.length).map
            (fun ck => ((r.chunks_inputs.getD ck []).map (fun k => lens.getD k 0)).sum)) :=
      traverseOption_eq_some_map _ _ _ (fun ck hckmem =>
        seq_region_len_falsy r cache lens ck hfal hlens hlen hipc
          (List.mem_range.mp hckmem))
    simp only [SeqRecipe.total_region_len, htrav]
    refine congrArg some ?_
    rw [map_f_getD_range r.chunks_inputs []
      (fun c => (c.map (fun k => lens.getD k 0)).sum)]
    have hmm : r.chunks_inputs.map (fun c => (c.map (fun k => lens.getD k 0)).sum)
        = (r.chunks_inputs.map (List.map (fun k => lens.getD k 0))).map List.sum := by
      rw [List.map_map]; rfl
    rw [hmm, ← List.sum_flatten, ← List.map_flatten]
    rw [show r.chunks_inputs
        = chunked_iterable (List.range r.nInputs) r.inputs_per_chunk from rfl]
    rw [chunked_flatten (List.range r.nInputs) r.inputs_per_chunk hipc, ← hlen,
      map_getD_range]
  -- nitems_per_input = 0 is falsy as well
  · have hfal : r.nitems_per_input.getD 0 = 0 := by rw [hnit]; rfl
    have htrav : traverseOption
        (fun ck => (r.region_and_conflicts cache ck).map (fun x => x.1.2 - x.1.1))
        (List.range r.chunks_inputs.length)
        = some ((List.range r.chunks_inputs.length).map
            (fun ck => ((r.chunks_inputs.getD ck []).map (fun k => lens.getD k 0)).sum)) :=
      traverseOption_eq_some_map _ _ _ (fun ck hckmem =>
        seq_region_len_falsy r cache lens ck hfal hlens hlen hipc
          (List.mem_range.mp hckmem))
    simp only [SeqRecipe.total_region_len, htrav]
    refine congrArg some ?_
    rw [map_f_getD_range r.chunks_inputs []
      (fun c => (c.map (fun k => lens.getD k 0)).sum)]
    have hmm : r.chunks_inputs.map (fun c => (c.map (fun k => lens.getD k 0)).sum)
        = (r.chunks_inputs.map (List.map (fun k => lens.getD k 0))).map List.sum := by
      rw [List.map_map]; rfl
    rw [hmm, ← List.sum_flatten, ← List.map_flatten]
    rw [show r.chunks_inputs
        = chunked_iterable (List.range r.nInputs) r.inputs_per_chunk from rfl]
    rw [chunked_flatten (List.range r.nInputs) r.inputs_per_chunk hipc, ← hlen,
      map_getD_range]
  -- fixed branch: chunking must be exact
  · have hdvd : r.inputs_per_chunk ∣ r.nInputs := by
      rcases hok with hfal | hdvd
      · rw [hnit] at hfal; simp at hfal
      · exact hdvd
    have hrep : lens = List.replicate r.nInputs (m + 1) := by
      rw [hnit] at hlens
      simp only [resolved_sequence_lens, Option.some.injEq] at hlens
      exact hlens.symm
    have htrav : traverseOption
        (fun ck => (r.region_and_conflicts cache ck).map (fun x => x.1.2 - x.1.1))
        (List.range r.chunks_inputs.length)
        = some ((List.range r.chunks_inputs.length).map
            (fun _ => (m + 1) * r.inputs_per_chunk)) :=
      traverseOption_eq_some_map _ _ _ (fun ck hckmem =>
        seq_region_len_fixed r cache m ck hnit hipc (List.mem_range.mp hckmem))
    simp only [SeqRecipe.total_region_len, htrav]
    refine congrArg some ?_
    have hNip : r.chunks_inputs.length * r.inputs_per_chunk = r.nInputs := by
      have h := chunked_length_mul (List.range r.nInputs) r.inputs_per_chunk hipc
        (by rw [List.length_range]; exact hdvd)
      rw [List.length_range] at h
      exact h
    rw [List.map_const', List.sum_replicate, smul_eq_mul, List.length_range, hrep,
      List.sum_replicate, smul_eq_mul, ← hNip]
    ring

/-- Spec §8 Example B: variable-length inputs `[3,4,2,5]`, one input per
chunk, target chunk size 4. -/
def exampleVarRecipe : SeqRecipe := ⟨1, none, 4, 4⟩

/-- The metadata cache after `prepare_target` persisted `[3,4,2,5]`. -/
def exampleVarCache : Cache :=
  cacheSet [] GLOBAL_METADATA_KEY (recipeMetaJson [3, 4, 2, 5])

/-- A fixed-length recipe with a ragged final chunk: 3 inputs of length 2,
two inputs per chunk, so the second chunk holds a single input. -/
def raggedRecipe : SeqRecipe := ⟨2, some 2, 3, 4⟩

theorem exampleVarRecipe_chunks : exampleVarRecipe.chunks_inputs = [[0], [1], [2], [3]] := by
  rw [SeqRecipe.chunks_inputs]
  rw [show List.range exampleVarRecipe.nInputs = [0, 1, 2, 3] from by decide]
  rw [show exampleVarRecipe.inputs_per_chunk = 1 from rfl]
  simp [chunked_iterable]

theorem raggedRecipe_chunks : raggedRecipe.chunks_inputs = [[0, 1], [2]] := by
  rw [SeqRecipe.chunks_inputs]
  rw [show List.range raggedRecipe.nInputs = [0, 1, 2] from by decide]
  rw [show raggedRecipe.inputs_per_chunk = 2 from rfl]
  simp [chunked_iterable]


/-! ## Lemmas for the initialization chunk sets -/

theorem map_flatMap_eq (l : List α) (f : α → List β) (g : β → γ) :
    (l.flatMap f).map g = l.flatMap (fun a => (f a).map g) := by
  induction l with
  | nil => rfl
  | cons a as ih => simp [List.flatMap_cons, ih]

theorem filter_flatMap_eq (l : List α) (f : α → List β) (p : β → Bool) :
    (l.flatMap f).filter p = l.flatMap (fun a => (f a).filter p) := by
  induction l with
  | nil => rfl
  | cons a as ih => simp [List.flatMap_cons, List.filter_append, ih]

theorem flatMap_singleton_map (l : List α) (g : α → β) :
    l.flatMap (fun a => [g a]) = l.map g := by
  induction l with
  | nil => rfl
  | cons a as ih => simp [List.flatMap_cons, ih]

/-- The multi-variable chunk keys are, variable-major, all pairs of a
variable with a chunk index below the per-variable chunk count. -/
theorem multivar_chunk_keys_eq (r : MultiVarRecipe) :
    r.chunk_keys = r.variable_names.flatMap (fun v =>
      (List.range (chunked_iterable r.other_keys r.inputs_per_chunk).length).map
        (fun c => (v, c))) := by
  rw [MultiVarRecipe.chunk_keys, MultiVarRecipe.chunks_inputs, map_flatMap_eq]
  congr 1
  funext v
  rw [List.map_map]
  rw [show (Prod.fst ∘ fun p : Nat × List Nat =>
      ((v, p.1), p.2.map (fun sk => (v, sk)))) = (fun c => (v, c)) ∘ Prod.fst from rfl]
  rw [← List.map_map, List.enum_map_fst]

theorem filter_range_zero (Nc : Nat) (h : Nc ≠ 0) :
    (List.range Nc).filter (fun c => c == 0) = [0] := by
  obtain ⟨p, rfl⟩ := Nat.exists_eq_succ_of_ne_zero h
  rw [List.range_succ_eq_map, List.filter_cons, List.filter_map]
  have hnil : (List.range p).filter ((fun c => c == 0) ∘ Nat.succ) = [] :=
    List.filter_eq_nil_iff.mpr (fun a _ => by simp [Function.comp])
  simp [hnil]

theorem filter_block_zero (v : String) (Nc : Nat) (h : Nc ≠ 0) :
    ((List.range Nc).map (fun c => (v, c))).filter
        (fun k : String × Nat => k.2 == 0) = [(v, 0)] := by
  rw [List.filter_map]
  rw [show ((fun k : String × Nat => k.2 == 0) ∘ fun c => (v, c))
      = (fun c => c == 0) from rfl]
  rw [filter_range_zero Nc h]
  rfl

/-- For a multi-variable recipe with at least one chunk per variable, the
initialization chunk set is exactly one chunk per variable: the chunk at
position-chunk-index 0. -/
theorem multivar_init_aux (r : MultiVarRecipe)
    (h : chunked_iterable r.other_keys r.inputs_per_chunk ≠ []) :
    r.init_chunks = r.variable_names.map (fun v => (v, 0)) := by
  have hNc : (chunked_iterable r.other_keys r.inputs_per_chunk).length ≠ 0 :=
    fun hlen => h (List.length_eq_zero.mp hlen)
  rw [MultiVarRecipe.init_chunks, multivar_chunk_keys_eq, filter_flatMap_eq]
  have hblock : ∀ v : String,
      ((List.range (chunked_iterable r.other_keys r.inputs_per_chunk).length).map
        (fun c => (v, c))).filter (fun k : String × Nat => k.2 == 0) = [(v, 0)] :=
    fun v => filter_block_zero v _ hNc
  simp only [hblock]
  exact flatMap_singleton_map r.variable_names (fun v => (v, 0))

/-! ## Lemmas for association-list lookups through maps -/

theorem lookup_map_pair [BEq α] (l : List (α × β)) (f : α × β → γ) (k : α) :
    (l.map (fun p => (p.1, f p))).lookup k
      = (l.find? (fun p => k == p.1)).map f := by
  induction l with
  | nil => rfl
  | cons p ps ih =>
      cases hbeq : (k == p.1) with
      | true => simp [List.lookup, List.find?, hbeq]
      | false => simp [List.lookup, List.find?, hbeq, ih]

theorem lookup_eq_find?_snd [BEq α] (l : List (α × β)) (k : α) :
    l.lookup k = (l.find? (fun p => k == p.1)).map Prod.snd := by
  induction l with
  | nil => rfl
  | cons p ps ih =>
      cases hbeq : (k == p.1) with
      | true => simp [List.lookup, List.find?, hbeq]
      | false => simp [List.lookup, List.find?, hbeq, ih]

theorem lookup_eq_none_of_keys [BEq α] [LawfulBEq α] (l : List (α × β)) (k : α)
    (h : ∀ p ∈ l, p.1 ≠ k) : l.lookup k = none := by
  induction l with
  | nil => rfl
  | cons p ps ih =>
      rcases p with ⟨a, b⟩
      have hne : (k == a) = false :=
        beq_eq_false_iff_ne.mpr
          (fun he => h (a, b) (List.mem_cons_self _ _) he.symm)
      simp only [List.lookup_cons, hne]
      exact ih (fun q hq => h q (List.mem_cons_of_mem (a, b) hq))

/-- The write of a region touches only the arrays named in the written
dataset: any other name keeps its target binding. -/
theorem write_region_frame (target : ZGroup) (ds : List (String × ZarrArray))
    (region : Nat × Nat) (name : String) (hds : ds.lookup name = none) :
    (write_region_to_target target ds region).lookup name = target.lookup name := by
  induction target with
  | nil => rfl
  | cons p ps ih =>
      rcases p with ⟨a, b⟩
      cases hbeq : (name == a) with
      | true =>
          have ha : name = a := eq_of_beq hbeq
          have hla : ds.lookup a = none := ha ▸ hds
          simp only [write_region_to_target, List.map_cons, hla, List.lookup_cons,
            hbeq]
      | false =>
          simp only [write_region_to_target, List.map_cons]
          cases hm : ds.lookup a with
          | none =>
              simp only [hm, List.lookup_cons, hbeq]
              exact ih
          | some v =>
              simp only [hm, List.lookup_cons, hbeq]
              exact ih

/-- After `expand_target_dim`, the binding of the concatenation-dimension
array is its resized value with every element overwritten by zero. -/
theorem expand_lookup_aux (zgroup : ZGroup) (dim : String) (dimsize : Nat)
    (arr : ZarrArray) (hmem : zgroup.lookup dim = some arr) :
    (expand_target_dim zgroup dim dimsize).lookup dim
      = some (zeroArray (if dim ∈ arr.dims then resizeArray arr dimsize else arr)) := by
  rw [lookup_eq_find?_snd] at hmem
  rcases Option.map_eq_some'.mp hmem with ⟨p0, hp0, hsnd⟩
  have hpred : (dim == p0.1) = true :=
    @List.find?_some (String × ZarrArray) (fun p => dim == p.1) p0 zgroup hp0
  have hkey : p0.1 = dim := (eq_of_beq hpred).symm
  have hfun1 : (fun p : String × ZarrArray =>
      if dim ∈ p.2.dims then (p.1, resizeArray p.2 dimsize) else p)
      = (fun p : String × ZarrArray =>
          (p.1, if dim ∈ p.2.dims then resizeArray p.2 dimsize else p.2)) := by
    funext p
    by_cases hc : dim ∈ p.2.dims <;> simp [hc]
  have hfun2 : (fun p : String × ZarrArray => if p.1 = dim then (p.1, zeroArray p.2) else p)
      = (fun p : String × ZarrArray => (p.1, if p.1 = dim then zeroArray p.2 else p.2)) := by
    funext p
    by_cases hc : p.1 = dim <;> simp [hc]
  have hres : (zgroup.map (fun p : String × ZarrArray =>
      if dim ∈ p.2.dims then (p.1, resizeArray p.2 dimsize) else p)).lookup dim
      = some (if dim ∈ arr.dims then resizeArray arr dimsize else arr) := by
    rw [hfun1, lookup_map_pair, hp0, Option.map_some', hsnd]
  rw [expand_target_dim, hres]
  simp only [Option.isSome_some, if_true]
  rw [hfun1, hfun2, lookup_map_pair, List.find?_map]
  rw [show ((fun p : String × ZarrArray => dim == p.1) ∘
      (fun p : String × ZarrArray =>
        (p.1, if dim ∈ p.2.dims then resizeArray p.2 dimsize else p.2)))
      = (fun p : String × ZarrArray => dim == p.1) from rfl]
  rw [hp0, Option.map_some', Option.map_some']
  simp only [hkey, if_true, hsnd]

/-! ## The region computation of the multi-variable recipe

`region_and_conflicts_for_chunk` as invoked on
`NetCDFtoZarrMultiVarSequentialRecipe`: `inputs_for_chunk` is the dict lookup
`self._chunks_inputs[chunk_key]` (line 395), `input_position` is
`self.input_pattern.keys[self._other_key].index(input_key[1])` (lines
522-523), `chunk_position` is `chunk_key[1]` (lines 525-526), and
`_n_inputs_along_sequence` is the length of the non-variable key list
(line 517).  `List.indexOf` models Python's `list.index`; for a key absent
from the list Python raises `ValueError` where `indexOf` returns the list
length, a case that cannot arise for input keys produced by the pattern.
`nitems_per_input` and `_sequence_dim_chunks` are recipe fields, passed
explicitly here. -/

def MultiVarRecipe.region_and_conflicts (r : MultiVarRecipe)
    (nitems_per_input : Option Nat) (sequence_dim_chunks : Nat) (cache : Cache)
    (chunk_key : String × Nat) : Option ((Nat × Nat) × List (List Nat)) :=
  match r.chunks_inputs.lookup chunk_key with
  | none => none
  | some input_keys =>
      region_and_conflicts_for_chunk nitems_per_input r.inputs_per_chunk
        r.other_keys.length sequence_dim_chunks
        (fun k => r.other_keys.indexOf k.2) chunk_key.2 cache input_keys

/-- Sum over all chunk keys (`iter_chunks`, dict order) of the multi-variable
recipe's region lengths; `none` if any region computation fails. -/
def MultiVarRecipe.total_region_len (r : MultiVarRecipe)
    (nitems_per_input : Option Nat) (sequence_dim_chunks : Nat)
    (cache : Cache) : Option Nat :=
  match traverseOption
      (fun ck => (r.region_and_conflicts nitems_per_input sequence_dim_chunks
          cache ck).map (fun x => x.1.2 - x.1.1))
      (r.chunks_inputs.map Prod.fst) with
  | some lens => some lens.sum
  | none => none

theorem sum_flatMap (l : List α) (f : α → List Nat) :
    (l.flatMap f).sum = (l.map (fun a => (f a).sum)).sum := by
  rw [List.flatMap_def, List.sum_flatten, List.map_map]
  rfl

theorem mem_of_mem_chunked (xs : List α) (n : Nat) (h : n ≠ 0) (c : List α)
    (hc : c ∈ chunked_iterable xs n) (a : α) (ha : a ∈ c) : a ∈ xs := by
  have hmem : a ∈ (chunked_iterable xs n).flatten :=
    List.mem_flatten.mpr ⟨c, hc, ha⟩
  rwa [chunked_flatten _ _ h] at hmem

theorem map_indexOf_nodup (l : List Nat) (h : l.Nodup) :
    l.map (fun a => l.indexOf a) = List.range l.length := by
  induction l with
  | nil => rfl
  | cons x xs ih =>
      rcases List.nodup_cons.mp h with ⟨hx, hxs⟩
      have hpt : xs.map (fun a => List.indexOf a (x :: xs))
          = xs.map (fun a => List.indexOf a xs + 1) := by
        apply List.map_congr_left
        intro a ha
        have hne : x ≠ a := fun he => hx (he ▸ ha)
        simp [List.indexOf_cons, hne]
      rw [List.map_cons, List.indexOf_cons_self, hpt, List.length_cons,
        List.range_succ_eq_map, ← ih hxs, List.map_map]
      rfl

/-- With distinct sequence keys, reading the length table through
`keys.index` recovers the table itself, in order. -/
theorem map_getD_indexOf (keys lens : List Nat) (hnd : keys.Nodup)
    (hlen : lens.length = keys.length) :
    keys.map (fun sk => lens.getD (keys.indexOf sk) 0) = lens := by
  have h1 : keys.map (fun sk => lens.getD (keys.indexOf sk) 0)
      = (keys.map (fun a => keys.indexOf a)).map (fun i => lens.getD i 0) := by
    rw [List.map_map]
    rfl
  rw [h1, map_indexOf_nodup keys hnd, ← hlen, map_getD_range]

/-- Dict semantics: with distinct keys, lookup of an entry's key yields its
value. -/
theorem lookup_of_mem_keys_nodup [BEq α] [LawfulBEq α] (l : List (α × β))
    (hnd : (l.map Prod.fst).Nodup) (k : α) (v : β) (hmem : (k, v) ∈ l) :
    l.lookup k = some v := by
  induction l with
  | nil => cases hmem
  | cons p ps ih =>
      rcases p with ⟨a, b⟩
      rw [List.map_cons] at hnd
      rcases List.nodup_cons.mp hnd with ⟨hafst, htail⟩
      rcases List.mem_cons.mp hmem with heq | htl
      · injection heq with h1 h2
        subst h1
        subst h2
        simp [List.lookup_cons]
      · have hane : (k == a) = false := by
          apply beq_eq_false_iff_ne.mpr
          intro he
          exact hafst (he ▸ List.mem_map.mpr ⟨(k, v), htl, rfl⟩)
        simp only [List.lookup_cons, hane]
        exact ih htail htl

theorem map_keys_lookup [BEq α] [LawfulBEq α] (l : List (α × β))
    (hnd : (l.map Prod.fst).Nodup) (h : β → γ) (d : β) :
    (l.map Prod.fst).map (fun k => h ((l.lookup k).getD d))
      = l.map (fun p => h p.2) := by
  rw [List.map_map]
  apply List.map_congr_left
  intro p hp
  simp only [Function.comp_apply]
  rw [lookup_of_mem_keys_nodup l hnd p.1 p.2 hp, Option.getD_some]

theorem nodup_pair_blocks (vs : List String) (Nc : Nat) (hv : vs.Nodup) :
    (vs.flatMap (fun v => (List.range Nc).map (fun c => (v, c)))).Nodup := by
  induction vs with
  | nil => simp
  | cons v rest ih =>
      rw [List.flatMap_cons]
      rcases List.nodup_cons.mp hv with ⟨hvmem, hrest⟩
      apply List.Nodup.append
      · refine (List.nodup_range Nc).map ?_
        intro c1 c2 hce
        injection hce with h1 h2
      · exact ih hrest
      · intro a ha hb
        rcases List.mem_map.mp ha with ⟨c, hc, rfl⟩
        rcases List.mem_flatMap.mp hb with ⟨v2, hv2, hmem2⟩
        rcases List.mem_map.mp hmem2 with ⟨c2, hc2, heq⟩
        injection heq with h1 h2
        exact hvmem (h1 ▸ hv2)

theorem multivar_chunk_keys_nodup (r : MultiVarRecipe)
    (hv : r.variable_names.Nodup) : (r.chunks_inputs.map Prod.fst).Nodup := by
  rw [show r.chunks_inputs.map Prod.fst = r.chunk_keys from rfl,
    multivar_chunk_keys_eq]
  exact nodup_pair_blocks r.variable_names _ hv

/-- Every `_chunks_inputs` entry of the multi-variable recipe pairs a chunk
key `(v, c)` with the `c`-th batch of that variable's sequence keys. -/
theorem multivar_entry_shape (r : MultiVarRecipe)
    (p : (String × Nat) × List (String × Nat)) (hp : p ∈ r.chunks_inputs) :
    ∃ v c batch, v ∈ r.variable_names ∧
      batch ∈ chunked_iterable r.other_keys r.inputs_per_chunk ∧
      p = ((v, c), batch.map (fun sk => (v, sk))) := by
  rcases List.mem_flatMap.mp hp with ⟨v, hvmem, hmem⟩
  rcases List.mem_map.mp hmem with ⟨q, hq, rfl⟩
  rcases q with ⟨c, batch⟩
  refine ⟨v, c, batch, hvmem, ?_, rfl⟩
  rcases List.mem_enum hq with ⟨hlt, heq⟩
  rw [heq]
  exact List.getElem_mem _

/-- In the metadata branch, a multi-variable chunk's region length is the
sum of its member inputs' lengths, read through `index` positions. -/
theorem multivar_region_len_falsy (r : MultiVarRecipe) (nitems : Option Nat)
    (zc : Nat) (cache : Cache) (lens : List Nat) (ck : String × Nat)
    (members : List (String × Nat))
    (hfal : nitems.getD 0 = 0)
    (hv : r.variable_names.Nodup)
    (hlens : resolved_sequence_lens nitems r.other_keys.length cache = some lens)
    (hlen : lens.length = r.other_keys.length)
    (hipc : r.inputs_per_chunk ≠ 0)
    (hmem : (ck, members) ∈ r.chunks_inputs) :
    (r.region_and_conflicts nitems zc cache ck).map (fun x => x.1.2 - x.1.1)
      = some ((members.map
          (fun k => lens.getD (r.other_keys.indexOf k.2) 0)).sum) := by
  have hlookup : r.chunks_inputs.lookup ck = some members :=
    lookup_of_mem_keys_nodup _ (multivar_chunk_keys_nodup r hv) _ _ hmem
  rcases multivar_entry_shape r (ck, members) hmem with
    ⟨v, c, batch, hvm, hbatch, hshape⟩
  injection hshape with hck hmembers
  have hpos : ∀ k ∈ members, r.other_keys.indexOf k.2 < r.other_keys.length := by
    intro k hk
    rw [hmembers] at hk
    rcases List.mem_map.mp hk with ⟨sk, hsk, rfl⟩
    exact List.indexOf_lt_length.mpr
      (mem_of_mem_chunked _ _ hipc batch hbatch sk hsk)
  have hnn : members ≠ [] := by
    rw [hmembers]
    rcases List.exists_cons_of_ne_nil (chunked_ne_nil _ _ batch hbatch) with
      ⟨b0, bs, hb⟩
    rw [hb]
    simp
  have hfixed : ∀ m, nitems = some (m + 1) →
      members.length = r.inputs_per_chunk ∧
      ∃ k0, members.head? = some k0 ∧
        r.other_keys.indexOf k0.2 = ck.2 * r.inputs_per_chunk := by
    intro m hm
    rw [hm] at hfal
    simp at hfal
  have haux := region_matches_spec_aux nitems r.inputs_per_chunk
    r.other_keys.length zc (fun k => r.other_keys.indexOf k.2) ck.2 cache
    members lens hlens hlen hpos hfixed
  rcases List.exists_cons_of_ne_nil hnn with ⟨k0, rest, hk0⟩
  have hspec : spec_region lens (fun k => r.other_keys.indexOf k.2) members
      = some ((lens.take (r.other_keys.indexOf k0.2)).sum,
          (lens.take (r.other_keys.indexOf k0.2)).sum
            + (members.map
                (fun k => lens.getD (r.other_keys.indexOf k.2) 0)).sum) := by
    rw [hk0]
    simp only [spec_region, List.head?_cons]
  rcases Option.map_eq_some'.mp (haux.trans hspec) with ⟨x, hx, hfst⟩
  simp only [MultiVarRecipe.region_and_conflicts, hlookup]
  rw [hx, Option.map_some', hfst]
  rw [Nat.add_sub_cancel_left]

/-- In the fixed branch, every multi-variable chunk's region length is the
full stride. -/
theorem multivar_region_len_fixed (r : MultiVarRecipe) (m zc : Nat)
    (cache : Cache) (ck : String × Nat) (members : List (String × Nat))
    (hv : r.variable_names.Nodup)
    (hipc : r.inputs_per_chunk ≠ 0)
    (hmem : (ck, members) ∈ r.chunks_inputs) :
    (r.region_and_conflicts (some (m + 1)) zc cache ck).map
        (fun x => x.1.2 - x.1.1)
      = some ((m + 1) * r.inputs_per_chunk) := by
  have hlookup : r.chunks_inputs.lookup ck = some members :=
    lookup_of_mem_keys_nodup _ (multivar_chunk_keys_nodup r hv) _ _ hmem
  rcases multivar_entry_shape r (ck, members) hmem with
    ⟨v, c, batch, hvm, hbatch, hshape⟩
  injection hshape with hck hmembers
  have hpos : ∀ k ∈ members, r.other_keys.indexOf k.2 < r.other_keys.length := by
    intro k hk
    rw [hmembers] at hk
    rcases List.mem_map.mp hk with ⟨sk, hsk, rfl⟩
    exact List.indexOf_lt_length.mpr
      (mem_of_mem_chunked _ _ hipc batch hbatch sk hsk)
  have hconf : traverseOption
      (fun k => (calc_chunk_conflicts
        (List.replicate r.other_keys.length (m + 1)) zc).get?
          (r.other_keys.indexOf k.2)) members
      = some (members.map
          (fun k => (calc_chunk_conflicts
            (List.replicate r.other_keys.length (m + 1)) zc).getD
              (r.other_keys.indexOf k.2) [])) :=
    traverseOption_eq_some_map _ _ _ (fun a ha =>
      get?_eq_some_getD _ _ _
        (by rw [calc_chunk_conflicts_length, List.length_replicate]
            exact hpos a ha))
  simp only [MultiVarRecipe.region_and_conflicts, hlookup]
  simp only [region_and_conflicts_for_chunk, hconf, Option.map_some']
  rw [Nat.add_sub_cancel_left]

/-- Sum of all chunk region lengths for the multi-variable recipe: each
variable's chunks tile the axis once, so the total is the number of
variables times the axis size. -/
theorem multivar_total_region_len_aux (r : MultiVarRecipe)
    (nitems : Option Nat) (zc : Nat) (cache : Cache) (lens : List Nat)
    (hipc : r.inputs_per_chunk ≠ 0)
    (hv : r.variable_names.Nodup)
    (hk : r.other_keys.Nodup)
    (hlens : resolved_sequence_lens nitems r.other_keys.length cache = some lens)
    (hlen : lens.length = r.other_keys.length)
    (hok : nitems.getD 0 = 0 ∨ r.inputs_per_chunk ∣ r.other_keys.length) :
    r.total_region_len nitems zc cache
      = some (r.variable_names.length * lens.sum) := by
  have hnodupkeys := multivar_chunk_keys_nodup r hv
  have hS : ((chunked_iterable r.other_keys r.inputs_per_chunk).map
      (fun b => (b.map
        (fun sk => lens.getD (r.other_keys.indexOf sk) 0)).sum)).sum
      = lens.sum := by
    have hmm : (chunked_iterable r.other_keys r.inputs_per_chunk).map
        (fun b => (b.map (fun sk => lens.getD (r.other_keys.indexOf sk) 0)).sum)
        = ((chunked_iterable r.other_keys r.inputs_per_chunk).map
            (List.map (fun sk => lens.getD (r.other_keys.indexOf sk) 0))).map
              List.sum := by
      rw [List.map_map]
      rfl
    rw [hmm, ← List.sum_flatten, ← List.map_flatten, chunked_flatten _ _ hipc,
      map_getD_indexOf r.other_keys lens hk hlen]
  have hvar : ∀ v : String,
      ((chunked_iterable r.other_keys r.inputs_per_chunk).enum.map
        (fun q => ((v, q.1), q.2.map (fun sk => (v, sk))))).map
          (fun p => (p.2.map
            (fun k => lens.getD (r.other_keys.indexOf k.2) 0)).sum)
      = (chunked_iterable r.other_keys r.inputs_per_chunk).map
          (fun b => (b.map
            (fun sk => lens.getD (r.other_keys.indexOf sk) 0)).sum) := by
    intro v
    rw [List.map_map]
    have hfeq : ((fun p : (String × Nat) × List (String × Nat) =>
        (p.2.map (fun k => lens.getD (r.other_keys.indexOf k.2) 0)).sum) ∘
          (fun q : Nat × List Nat => ((v, q.1), q.2.map (fun sk => (v, sk)))))
        = (fun b : List Nat => (b.map
            (fun sk => lens.getD (r.other_keys.indexOf sk) 0)).sum) ∘
              Prod.snd := by
      funext q
      simp only [Function.comp_apply, List.map_map]
      rfl
    rw [hfeq, ← List.map_map, List.enum_map_snd]
  rcases hnit : nitems with _ | ⟨_ | m⟩
  · -- nitems falsy (None): metadata branch
    subst hnit
    have hfal : (none : Option Nat).getD 0 = 0 := rfl
    have htrav : traverseOption
        (fun ck => (r.region_and_conflicts none zc cache ck).map
          (fun x => x.1.2 - x.1.1))
        (r.chunks_inputs.map Prod.fst)
        = some ((r.chunks_inputs.map Prod.fst).map
            (fun ck => (((r.chunks_inputs.lookup ck).getD []).map
              (fun k => lens.getD (r.other_keys.indexOf k.2) 0)).sum)) := by
      apply traverseOption_eq_some_map
      intro ck hck
      rcases List.mem_map.mp hck with ⟨p, hp, hpk⟩
      have hpmem : (ck, p.2) ∈ r.chunks_inputs := by
        rw [← hpk]
        exact hp
      have hl : r.chunks_inputs.lookup ck = some p.2 :=
        lookup_of_mem_keys_nodup _ hnodupkeys _ _ hpmem
      rw [multivar_region_len_falsy r none zc cache lens ck p.2 hfal hv hlens
        hlen hipc hpmem, hl, Option.getD_some]
    simp only [MultiVarRecipe.total_region_len, htrav]
    refine congrArg some ?_
    rw [map_keys_lookup r.chunks_inputs hnodupkeys
      (fun members => (members.map
        (fun k => lens.getD (r.other_keys.indexOf k.2) 0)).sum) []]
    simp only [MultiVarRecipe.chunks_inputs]
    rw [map_flatMap_eq]
    simp only [hvar]
    rw [sum_flatMap, List.map_const', List.sum_replicate, smul_eq_mul, hS]
  · -- nitems = 0 is falsy as well
    subst hnit
    have hfal : (some 0 : Option Nat).getD 0 = 0 := rfl
    have htrav : traverseOption
        (fun ck => (r.region_and_conflicts (some 0) zc cache ck).map
          (fun x => x.1.2 - x.1.1))
        (r.chunks_inputs.map Prod.fst)
        = some ((r.chunks_inputs.map Prod.fst).map
            (fun ck => (((r.chunks_inputs.lookup ck).getD []).map
              (fun k => lens.getD (r.other_keys.indexOf k.2) 0)).sum)) := by
      apply traverseOption_eq_some_map
      intro ck hck
      rcases List.mem_map.mp hck with ⟨p, hp, hpk⟩
      have hpmem : (ck, p.2) ∈ r.chunks_inputs := by
        rw [← hpk]
        exact hp
      have hl : r.chunks_inputs.lookup ck = some p.2 :=
        lookup_of_mem_keys_nodup _ hnodupkeys _ _ hpmem
      rw [multivar_region_len_falsy r (some 0) zc cache lens ck p.2 hfal hv hlens
        hlen hipc hpmem, hl, Option.getD_some]
    simp only [MultiVarRecipe.total_region_len, htrav]
    refine congrArg some ?_
    rw [map_keys_lookup r.chunks_inputs hnodupkeys
      (fun members => (members.map
        (fun k => lens.getD (r.other_keys.indexOf k.2) 0)).sum) []]
    simp only [MultiVarRecipe.chunks_inputs]
    rw [map_flatMap_eq]
    simp only [hvar]
    rw [sum_flatMap, List.map_const', List.sum_replicate, smul_eq_mul, hS]
  · -- fixed branch: chunking must be exact
    subst hnit
    have hdvd : r.inputs_per_chunk ∣ r.other_keys.length := by
      rcases hok with hfal | hdvd
      · simp at hfal
      · exact hdvd
    have hrep : lens = List.replicate r.other_keys.length (m + 1) := by
      simp only [resolved_sequence_lens, Option.some.injEq] at hlens
      exact hlens.symm
    have htrav : traverseOption
        (fun ck => (r.region_and_conflicts (some (m + 1)) zc cache ck).map
          (fun x => x.1.2 - x.1.1))
        (r.chunks_inputs.map Prod.fst)
        = some ((r.chunks_inputs.map Prod.fst).map
            (fun _ => (m + 1) * r.inputs_per_chunk)) := by
      apply traverseOption_eq_some_map
      intro ck hck
      rcases List.mem_map.mp hck with ⟨p, hp, hpk⟩
      have hpmem : (ck, p.2) ∈ r.chunks_inputs := by
        rw [← hpk]
        exact hp
      exact multivar_region_len_fixed r m zc cache ck p.2 hv hipc hpmem
    simp only [MultiVarRecipe.total_region_len, htrav]
    refine congrArg some ?_
    rw [List.map_const', List.sum_replicate, smul_eq_mul, List.length_map]
    have hNv : r.chunks_inputs.length
        = r.variable_names.length
          * (chunked_iterable r.other_keys r.inputs_per_chunk).length := by
      simp only [MultiVarRecipe.chunks_inputs]
      rw [List.length_flatMap]
      have hblock : r.variable_names.map (List.length ∘ fun v =>
          (chunked_iterable r.other_keys r.inputs_per_chunk).enum.map
            (fun q => ((v, q.1), q.2.map (fun sk => (v, sk)))))
          = r.variable_names.map (fun _ =>
              (chunked_iterable r.other_keys r.inputs_per_chunk).length) := by
        apply List.map_congr_left
        intro v hvm
        simp only [Function.comp_apply, List.length_map, List.enum_length]
      rw [hblock, List.map_const', List.sum_replicate, smul_eq_mul]
    have hNip : (chunked_iterable r.other_keys r.inputs_per_chunk).length
        * r.inputs_per_chunk = r.other_keys.length :=
      chunked_length_mul r.other_keys r.inputs_per_chunk hipc hdvd
    rw [hNv, hrep, List.sum_replicate, smul_eq_mul, ← hNip]
    ring

/-! ## Claim theorems -/

/-- Per-variable length tables in which the middle variable disagrees with
the first while the last agrees with it. -/
def mismatchedLens : String → List Nat := fun v => if v = "b" then [3] else [2]

/-- Claim C1: for a multi-variable recipe, `sequence_lens` is supposed to raise
whenever ANY variable's length list differs from the first variable's.  The
guard `all([lens_by_variable[v] == lens_by_variable[variables[0]]])` only
compares the LAST loop variable against the first, so with three variables
whose middle table `[3]` disagrees while the last agrees, the code returns
the first variable's list `[2]` without raising, although the spec-mandated
check rejects this configuration. -/
theorem multivar_sequence_lens_skips_middle_variable :
    mismatchedLens "b" ≠ mismatchedLens "a" ∧
    sequence_lens_multivar ["a", "b", "c"] mismatchedLens = some [2] ∧
    spec_sequence_lens_multivar ["a", "b", "c"] mismatchedLens = none := by
  refine ⟨by decide, by decide, by decide⟩

/-- Claim C2, counterexample: `PermissionError` is an `IOError` that does not mean
"target not found", yet the probe catches it and creates a fresh target
instead of propagating it. -/
theorem probe_swallows_permission_error :
    PyExc.isIOError PyExc.permissionError = true ∧
    is_target_not_found PyExc.permissionError = false ∧
    prepare_target_probe (Except.error PyExc.permissionError)
      = ProbeOutcome.createdFresh := by
  decide

/-- Claim C2, amended: the probe of `prepare_target` creates a fresh target
exactly when the raised exception is a target-not-found signal OR any
`IOError`/`OSError`; only exceptions outside both classes propagate. -/
theorem probe_creation_iff_not_found_or_ioerror (e : PyExc) :
    (prepare_target_probe (Except.error e) = ProbeOutcome.createdFresh ↔
      (is_target_not_found e = true ∨ PyExc.isIOError e = true)) ∧
    (prepare_target_probe (Except.error e) = ProbeOutcome.raised e ↔
      (is_target_not_found e = false ∧ PyExc.isIOError e = false)) := by
  cases e <;> decide

/-- Claim C3, counterexample: the ragged final chunk `[2]` of a fixed-length recipe
(3 inputs of length 2, two inputs per chunk) gets the write region `[4, 8)`,
while the claimed value — start plus the sum of the members' lengths — is
`[4, 6)`. -/
theorem region_stop_ragged_counterexample :
    raggedRecipe.chunks_inputs.getD 1 [] = [2] ∧
    resolved_sequence_lens raggedRecipe.nitems_per_input raggedRecipe.nInputs []
      = some [2, 2, 2] ∧
    (raggedRecipe.region_and_conflicts [] 1).map Prod.fst = some (4, 8) ∧
    spec_region [2, 2, 2] (fun k => k) [2] = some (4, 6) ∧
    (4, 8) ≠ ((4, 6) : Nat × Nat) := by
  refine ⟨?_, by decide, ?_, by decide, by decide⟩
  · rw [raggedRecipe_chunks]
    decide
  · simp only [SeqRecipe.region_and_conflicts, raggedRecipe_chunks]
    decide

/-- Claim C3, amended: `region_and_conflicts_for_chunk` returns the spec's
WriteRegion — start the sum of the lengths of the inputs preceding the
chunk's first input, stop that start plus the sum of the members' lengths —
whenever the lengths come from the metadata cache, and in the fixed-length
branch whenever the chunk is full (`inputs_per_chunk` members starting at
position `chunk_position * inputs_per_chunk`); a ragged fixed-length final
chunk instead receives the full stride (see the counterexample). -/
theorem region_matches_spec {ik : Type}
    (nitems_per_input : Option Nat)
    (inputs_per_chunk n_inputs sequence_dim_chunks : Nat)
    (input_position : ik → Nat) (chunk_position : Nat) (cache : Cache)
    (input_keys : List ik) (lens : List Nat)
    (hlens : resolved_sequence_lens nitems_per_input n_inputs cache = some lens)
    (hlen : lens.length = n_inputs)
    (hpos : ∀ k ∈ input_keys, input_position k < n_inputs)
    (hfixed : ∀ m, nitems_per_input = some (m + 1) →
      input_keys.length = inputs_per_chunk ∧
      ∃ k0, input_keys.head? = some k0 ∧
        input_position k0 = chunk_position * inputs_per_chunk) :
    (region_and_conflicts_for_chunk nitems_per_input inputs_per_chunk n_inputs
        sequence_dim_chunks input_position chunk_position cache
        input_keys).map Prod.fst
      = spec_region lens input_position input_keys :=
  region_matches_spec_aux nitems_per_input inputs_per_chunk n_inputs
    sequence_dim_chunks input_position chunk_position cache input_keys lens
    hlens hlen hpos hfixed

theorem region_matches_spec_witness :
    (region_and_conflicts_for_chunk none 1 4 4 (fun k => k) 1 exampleVarCache
        [1]).map Prod.fst
      = spec_region [3, 4, 2, 5] (fun k => k) [1] :=
  region_matches_spec none 1 4 4 (fun k => k) 1 exampleVarCache [1] [3, 4, 2, 5]
    (by decide) (by decide) (by decide) (fun m hm => Option.noConfusion hm)

/-- Spec §8 Example C: two variables, four positions, two inputs per
chunk. -/
def exampleMultiVar : MultiVarRecipe := ⟨["a", "b"], [0, 1, 2, 3], 2⟩

theorem exampleMultiVar_chunked :
    chunked_iterable exampleMultiVar.other_keys exampleMultiVar.inputs_per_chunk
      = [[0, 1], [2, 3]] := by
  rw [show exampleMultiVar.other_keys = [0, 1, 2, 3] from rfl,
    show exampleMultiVar.inputs_per_chunk = 2 from rfl]
  simp [chunked_iterable]

/-- Claim C4, counterexample: two concrete recipes refute the original
claim.  The ragged fixed-length recipe has regions `[0,4)` and `[4,8)`, total
8, while the resolved per-input lengths `[2,2,2]` — whose sum 6 is the size
`prepare_target` declares for the axis — sum to 6.  And Example C's
multi-variable recipe with exact chunking (4 positions, 2 per chunk, length-1
inputs) has 4 ChunkKeys of region length 2 each, total 8, against a declared
axis size of 4: each of the 2 variables tiles the axis once. -/
theorem total_region_len_counterexample :
    raggedRecipe.total_region_len [] = some 8 ∧
    resolved_sequence_lens raggedRecipe.nitems_per_input raggedRecipe.nInputs []
      = some [2, 2, 2] ∧
    ([2, 2, 2] : List Nat).sum = 6 ∧ (8 : Nat) ≠ 6 ∧
    exampleMultiVar.total_region_len (some 1) 2 [] = some 8 ∧
    resolved_sequence_lens (some 1) exampleMultiVar.other_keys.length []
      = some [1, 1, 1, 1] ∧
    ([1, 1, 1, 1] : List Nat).sum = 4 ∧ (8 : Nat) ≠ 4 := by
  refine ⟨?_, by decide, by decide, by decide, ?_, by decide, by decide, by decide⟩
  · simp only [SeqRecipe.total_region_len, SeqRecipe.region_and_conflicts,
      raggedRecipe_chunks]
    decide
  · simp only [MultiVarRecipe.total_region_len, MultiVarRecipe.region_and_conflicts,
      MultiVarRecipe.chunks_inputs, exampleMultiVar_chunked]
    decide

/-- Claim C4, amended: the chunk write regions tile the declared axis size
per variable.  For a single-sequence recipe — when the lengths come from the
metadata cache, or the fixed-length chunking is exact — the sum over all
ChunkKeys of `stop - start` equals the sum of the resolved per-input lengths;
for a multi-variable recipe, under the same conditions, each variable's
chunks tile the axis once, so the sum over ALL ChunkKeys equals the number of
variables times the axis size.  A ragged fixed-length final chunk breaks the
equality (see the counterexample). -/
theorem total_region_len_eq_axis_size :
    (∀ (r : SeqRecipe) (cache : Cache) (lens : List Nat),
      r.inputs_per_chunk ≠ 0 →
      resolved_sequence_lens r.nitems_per_input r.nInputs cache = some lens →
      lens.length = r.nInputs →
      (r.nitems_per_input.getD 0 = 0 ∨ r.inputs_per_chunk ∣ r.nInputs) →
      r.total_region_len cache = some lens.sum) ∧
    (∀ (r : MultiVarRecipe) (nitems : Option Nat) (zc : Nat) (cache : Cache)
        (lens : List Nat),
      r.inputs_per_chunk ≠ 0 → r.variable_names.Nodup → r.other_keys.Nodup →
      resolved_sequence_lens nitems r.other_keys.length cache = some lens →
      lens.length = r.other_keys.length →
      (nitems.getD 0 = 0 ∨ r.inputs_per_chunk ∣ r.other_keys.length) →
      r.total_region_len nitems zc cache
        = some (r.variable_names.length * lens.sum)) :=
  ⟨fun r cache lens hipc hlens hlen hok =>
      total_region_len_aux r cache lens hipc hlens hlen hok,
    fun r nitems zc cache lens hipc hv hk hlens hlen hok =>
      multivar_total_region_len_aux r nitems zc cache lens hipc hv hk hlens
        hlen hok⟩

theorem total_region_len_eq_axis_size_witness :
    exampleVarRecipe.total_region_len exampleVarCache
      = some ([3, 4, 2, 5] : List Nat).sum ∧
    exampleMultiVar.total_region_len none 4 exampleVarCache
      = some (exampleMultiVar.variable_names.length
          * ([3, 4, 2, 5] : List Nat).sum) :=
  ⟨total_region_len_eq_axis_size.1 exampleVarRecipe exampleVarCache [3, 4, 2, 5]
      (by decide) (by decide) (by decide) (Or.inl (by decide)),
    total_region_len_eq_axis_size.2 exampleMultiVar none 4 exampleVarCache
      [3, 4, 2, 5] (by decide) (by decide) (by decide) (by decide) (by decide)
      (Or.inl rfl)⟩

/-- Claim C5: spec §8 Example B — cached per-input lengths `[3,4,2,5]` with one
input per chunk give the four chunks, in canonical order, the write regions
`[0,3)`, `[3,7)`, `[7,9)` and `[9,14)`. -/
theorem example_b_regions :
    (exampleVarRecipe.region_and_conflicts exampleVarCache 0).map Prod.fst
      = some (0, 3) ∧
    (exampleVarRecipe.region_and_conflicts exampleVarCache 1).map Prod.fst
      = some (3, 7) ∧
    (exampleVarRecipe.region_and_conflicts exampleVarCache 2).map Prod.fst
      = some (7, 9) ∧
    (exampleVarRecipe.region_and_conflicts exampleVarCache 3).map Prod.fst
      = some (9, 14) := by
  simp only [SeqRecipe.region_and_conflicts, exampleVarRecipe_chunks]
  refine ⟨by decide, by decide, by decide, by decide⟩

/-- Claim C6: the initialization chunk set is the first ChunkKey alone for a
single-sequence recipe, and for a multi-variable recipe exactly the chunks
at position-chunk-index 0, one per variable; Example C (2 variables × 4
positions, 2 inputs per chunk) has 4 ChunkKeys, of which the 2
initialization chunks are `("a",0)` and `("b",0)`. -/
theorem init_chunks_spec :
    (∀ r : SeqRecipe, r.chunks_inputs ≠ [] → r.init_chunks = some [0]) ∧
    (∀ m : MultiVarRecipe,
      chunked_iterable m.other_keys m.inputs_per_chunk ≠ [] →
      m.init_chunks = m.variable_names.map (fun v => (v, 0))) ∧
    exampleMultiVar.chunk_keys.length = 4 ∧
    exampleMultiVar.init_chunks = [("a", 0), ("b", 0)] := by
  refine ⟨?_, fun m hm => multivar_init_aux m hm, ?_, ?_⟩
  · intro r hr
    cases hc : r.chunks_inputs with
    | nil => exact absurd hc hr
    | cons c cs => simp only [SeqRecipe.init_chunks, hc]
  · simp only [MultiVarRecipe.chunk_keys, MultiVarRecipe.chunks_inputs,
      exampleMultiVar_chunked]
    decide
  · simp only [MultiVarRecipe.init_chunks, MultiVarRecipe.chunk_keys,
      MultiVarRecipe.chunks_inputs, exampleMultiVar_chunked]
    decide

theorem init_chunks_spec_witness :
    exampleVarRecipe.init_chunks = some [0] ∧
    exampleMultiVar.init_chunks
      = exampleMultiVar.variable_names.map (fun v => (v, 0)) :=
  ⟨init_chunks_spec.1 exampleVarRecipe
      (by rw [exampleVarRecipe_chunks]; decide),
    init_chunks_spec.2.1 exampleMultiVar
      (by rw [exampleMultiVar_chunked]; decide)⟩

/-- Claim C7: `to_pipelines` yields a single pipeline whose stages are, in order,
`cache_input` over all inputs (present exactly when input caching is
enabled), the singleton `prepare_target`, `store_chunk` over all chunks, and
the singleton `finalize_target`. -/
theorem to_pipelines_stage_order {ik ck : Type} (cache_inputs : Bool)
    (inputs : List ik) (chunks : List ck) :
    ∃ pipeline, to_pipelines cache_inputs inputs chunks = [pipeline] ∧
      pipeline.map Stage.fn =
        (if cache_inputs then [StageFun.cache_input] else [])
          ++ [StageFun.prepare_target, StageFun.store_chunk,
              StageFun.finalize_target] ∧
      ((∃ s ∈ pipeline, s.fn = StageFun.cache_input) ↔ cache_inputs = true) ∧
      (∀ s ∈ pipeline,
        (s.fn = StageFun.cache_input → s.items = some (inputs.map Sum.inl)) ∧
        (s.fn = StageFun.prepare_target → s.items = none) ∧
        (s.fn = StageFun.store_chunk → s.items = some (chunks.map Sum.inr)) ∧
        (s.fn = StageFun.finalize_target → s.items = none)) := by
  cases cache_inputs with
  | false =>
      refine ⟨[⟨StageFun.prepare_target, none⟩,
        ⟨StageFun.store_chunk, some (chunks.map Sum.inr)⟩,
        ⟨StageFun.finalize_target, none⟩], rfl, rfl, ?_, ?_⟩
      · simp
      · intro s hs
        simp only [List.mem_cons, List.not_mem_nil, or_false] at hs
        rcases hs with rfl | rfl | rfl <;> simp
  | true =>
      refine ⟨[⟨StageFun.cache_input, some (inputs.map Sum.inl)⟩,
        ⟨StageFun.prepare_target, none⟩,
        ⟨StageFun.store_chunk, some (chunks.map Sum.inr)⟩,
        ⟨StageFun.finalize_target, none⟩], rfl, rfl, ?_, ?_⟩
      · simp
      · intro s hs
        simp only [List.mem_cons, List.not_mem_nil, or_false] at hs
        rcases hs with rfl | rfl | rfl | rfl <;> simp

/-- Claim C8: the length list that the metadata branch of
`region_and_conflicts_for_chunk` decodes from the global key equals the list
`prepare_target` persisted there — the structured round trip through the
metadata cache preserves the lengths and their order. -/
theorem metadata_cache_roundtrip (n_inputs : Nat) (cache : Cache)
    (lens : List Nat) :
    resolved_sequence_lens none n_inputs
        (prepare_target_metadata none cache lens)
      = some lens := by
  simp only [resolved_sequence_lens, prepare_target_metadata, cacheSet,
    List.lookup_cons, beq_self_eq_true]
  exact decodeLens_recipeMetaJson lens

theorem zeroArray_data_replicate (arr : ZarrArray) :
    (zeroArray arr).data = List.replicate arr.data.length 0 :=
  List.map_const' arr.data 0

theorem resizeArray_data_length (arr : ZarrArray) (n : Nat) :
    (resizeArray arr n).data.length = n := by
  simp only [resizeArray, List.length_append, List.length_take,
    List.length_replicate]
  omega

/-- Claim C9: whenever the concatenation dimension exists as an array of the
target group, `expand_target_dim` leaves that array entirely zero — the
coordinate values previously stored there are not preserved (with the
dimension among the array dims, as a zarr coordinate has, the result is
exactly `dimsize` zeros). -/
theorem expand_target_dim_zeroes_coordinate (zgroup : ZGroup) (dim : String)
    (dimsize : Nat) (arr : ZarrArray) (hmem : zgroup.lookup dim = some arr) :
    ∃ arrNew, (expand_target_dim zgroup dim dimsize).lookup dim = some arrNew ∧
      (∀ x ∈ arrNew.data, x = 0) ∧
      (dim ∈ arr.dims → arrNew.data = List.replicate dimsize 0) := by
  refine ⟨_, expand_lookup_aux zgroup dim dimsize arr hmem, ?_, ?_⟩
  · intro x hx
    simp only [zeroArray] at hx
    rcases List.mem_map.mp hx with ⟨y, hy, hxy⟩
    exact hxy.symm
  · intro hdim
    rw [if_pos hdim, zeroArray_data_replicate, resizeArray_data_length]

/-- A small target group: the coordinate array "time" holding values `[5,6]`
and an unrelated array "lon". -/
def exampleGroup : ZGroup :=
  [("time", ⟨["time"], [5, 6]⟩), ("lon", ⟨["lon"], [1]⟩)]

theorem expand_target_dim_zeroes_coordinate_witness :
    ∃ arrNew,
      (expand_target_dim exampleGroup "time" 4).lookup "time" = some arrNew ∧
      (∀ x ∈ arrNew.data, x = 0) ∧
      ("time" ∈ (⟨["time"], [5, 6]⟩ : ZarrArray).dims →
        arrNew.data = List.replicate 4 0) :=
  expand_target_dim_zeroes_coordinate exampleGroup "time" 4 ⟨["time"], [5, 6]⟩
    (by decide)

/-- Claim C10: a variable of the chunk dataset whose dims lack the concatenation
dimension is dropped before the region write, and the target array of that
name is left unchanged by `store_chunk`. -/
theorem store_chunk_drops_nonsequence_vars (sequence_dim name : String)
    (ds_chunk : List (String × ZarrArray)) (target : ZGroup)
    (region : Nat × Nat) (arr : ZarrArray)
    (hmem : (name, arr) ∈ ds_chunk) (hnoseq : ¬ sequence_dim ∈ arr.dims) :
    name ∈ (ds_chunk.filter (fun q => ¬ sequence_dim ∈ q.2.dims)).map Prod.fst ∧
    (store_chunk_write sequence_dim ds_chunk target region).lookup name
      = target.lookup name := by
  have hdropped :
      name ∈ (ds_chunk.filter (fun q => ¬ sequence_dim ∈ q.2.dims)).map Prod.fst :=
    List.mem_map.mpr ⟨(name, arr),
      List.mem_filter.mpr ⟨hmem, by simpa using hnoseq⟩, rfl⟩
  refine ⟨hdropped, ?_⟩
  simp only [store_chunk_write]
  apply write_region_frame
  apply lookup_eq_none_of_keys
  intro p hp hpname
  rcases List.mem_filter.mp hp with ⟨hpds, hpkeep⟩
  have hkeep : ¬ p.1 ∈ (ds_chunk.filter
      (fun q => ¬ sequence_dim ∈ q.2.dims)).map Prod.fst := by
    simpa using hpkeep
  exact hkeep (hpname ▸ hdropped)

/-- A chunk dataset with one sequence variable and one static variable, and
a target holding both. -/
def exampleChunkDs : List (String × ZarrArray) :=
  [("temp", ⟨["time"], [1, 2]⟩), ("lon", ⟨["lon"], [9]⟩)]

def exampleTarget : ZGroup :=
  [("temp", ⟨["time"], [0, 0, 0, 0]⟩), ("lon", ⟨["lon"], [7]⟩)]

theorem store_chunk_drops_nonsequence_vars_witness :
    "lon" ∈ (exampleChunkDs.filter
        (fun q => ¬ "time" ∈ q.2.dims)).map Prod.fst ∧
    (store_chunk_write "time" exampleChunkDs exampleTarget (1, 3)).lookup "lon"
      = exampleTarget.lookup "lon" :=
  store_chunk_drops_nonsequence_vars "time" "lon" exampleChunkDs exampleTarget
    (1, 3) ⟨["lon"], [9]⟩ (by decide) (by decide)

end PangeoForge
